import Mathlib

/-!
Verification of the option-block codec and the array-format descriptor of the
flopy demo repository.  The repository excerpt contains the demonstration
notebooks (callers) of the `OptionBlock` and `ArrayFormat` components; the
component implementations themselves are not part of the excerpt, so the
definitions below are modelled from the specification, constrained by the
concrete behaviour recorded in the notebook outputs.
-/

set_option maxRecDepth 4000

namespace FlopyDemo

/-! ### Array-format descriptor: data model -/

/-- Modelled from the spec: numeric kind of the array values.  Float and
integer arrays get different default width/decimal floors. -/
inductive NumKind where
  | float
  | int
deriving DecidableEq

/-- Modelled from the spec: default field-width floor per numeric kind
(float arrays default to width 15; integer arrays are narrower). -/
def defaultWidth : NumKind → Nat
  | .float => 15
  | .int => 10

/-- Modelled from the spec: default decimal-places floor per numeric kind
(float arrays default to 6 decimal places; integer arrays to 0). -/
def defaultDecimal : NumKind → Nat
  | .float => 6
  | .int => 0

/-- Modelled from the spec: the format kind letter of a Fortran edit
descriptor (exponential, fixed point, general, integer). -/
inductive FormatKind where
  | E
  | F
  | G
  | I
deriving DecidableEq

/-- The canonical (upper-case) letter of a format kind. -/
def kindChar : FormatKind → Char
  | .E => 'E'
  | .F => 'F'
  | .G => 'G'
  | .I => 'I'

/-- Modelled from the spec: the `ArrayFormat` entity, the single source of
truth for how a numeric array is textually rendered. -/
structure ArrayFormat where
  dtype : NumKind
  npl : Nat
  format : FormatKind
  width : Nat
  decimal : Nat
  free : Bool
  binary : Bool
deriving DecidableEq

/-- The default descriptor for a float array, as shown by the notebook:
npl 20, kind E, width 15, decimal 6, free format, not binary. -/
def ArrayFormat.defaultFloat : ArrayFormat :=
  ⟨.float, 20, .E, 15, 6, true, false⟩

/-! ### Decimal numerals as character lists -/

/-- The character of a single decimal digit. -/
def digitChar : Nat → Char
  | 0 => '0'
  | 1 => '1'
  | 2 => '2'
  | 3 => '3'
  | 4 => '4'
  | 5 => '5'
  | 6 => '6'
  | 7 => '7'
  | 8 => '8'
  | _ => '9'

/-- Fuel-driven decimal rendering of a natural number (most significant
digit first).  Structural recursion on the fuel keeps it kernel-reducible. -/
def natDigitsAux : Nat → Nat → List Char
  | 0, _ => []
  | fuel + 1, n =>
    if n < 10 then [digitChar n]
    else natDigitsAux fuel (n / 10) ++ [digitChar (n % 10)]

/-- Decimal rendering of a natural number. -/
def natDigits (n : Nat) : List Char := natDigitsAux (n + 1) n

/-- The numeric value of a decimal digit character. -/
def digitVal (c : Char) : Nat := c.toNat - 48

/-- Parse a non-empty all-digit character list as a decimal natural number. -/
def parseNat (cs : List Char) : Option Nat :=
  if !cs.isEmpty && cs.all Char.isDigit then
    some (cs.foldl (fun a c => a * 10 + digitVal c) 0)
  else none

/-- Upper-casing of a character list. -/
def upperTok (t : List Char) : List Char := t.map Char.toUpper

/-! ### Array-format descriptor: operations -/

/-- Modelled from the spec: the Fortran view, reconstructing the edit
descriptor string from the current fields, or `(FREE)` when free format. -/
def fortranChars (f : ArrayFormat) : List Char :=
  if f.free then "(FREE)".data
  else
    '(' :: (natDigits f.npl ++ kindChar f.format ::
      (natDigits f.width ++ '.' :: (natDigits f.decimal ++ [')'])))

/-- The Fortran view as a string. -/
def ArrayFormat.fortran (f : ArrayFormat) : String := ⟨fortranChars f⟩

/-- Case-insensitive reading of a format-kind letter. -/
def kindOf (c : Char) : Option FormatKind :=
  if c.toUpper = 'E' then some .E
  else if c.toUpper = 'F' then some .F
  else if c.toUpper = 'G' then some .G
  else if c.toUpper = 'I' then some .I
  else none

/-- Parse the body of a fixed-format descriptor, `<n><K><w>.<d>)`
(the opening parenthesis has already been consumed). -/
def parseFixedBody (body : List Char) : Option (Nat × FormatKind × Nat × Nat) :=
  match (body.dropWhile Char.isDigit) with
  | k :: r2 =>
    match kindOf k with
    | some K =>
      match r2.dropWhile Char.isDigit with
      | '.' :: r4 =>
        if r4.dropWhile Char.isDigit = [')'] then
          match parseNat (body.takeWhile Char.isDigit),
                parseNat (r2.takeWhile Char.isDigit),
                parseNat (r4.takeWhile Char.isDigit) with
          | some n, some w, some d => some (n, K, w, d)
          | _, _, _ => none
        else none
      | _ => none
    | none => none
  | [] => none

/-- Modelled from the spec: `SetFromFortranDescriptor`.  `(FREE)` (case
insensitively) sets free format and resets width/decimal to the
numeric-kind defaults; a fixed descriptor `(<n><K><w>.<d>)` sets all four
fields to the requested values; anything else is a format error (`none`). -/
def setFortranChars (f : ArrayFormat) (cs : List Char) : Option ArrayFormat :=
  match cs with
  | c :: rest =>
    if c = '(' then
      if upperTok rest == "FREE)".data then
        some { f with free := true, width := defaultWidth f.dtype,
                      decimal := defaultDecimal f.dtype }
      else
        match parseFixedBody rest with
        | some (n, K, w, d) =>
          some { f with free := false, npl := n, format := K, width := w, decimal := d }
        | none => none
    else none
  | [] => none

/-- String wrapper of `setFortranChars`. -/
def setFromFortranDescriptor (f : ArrayFormat) (s : String) : Option ArrayFormat :=
  setFortranChars f s.data

/-- Modelled from the spec: the template view, a per-value format template
positioning width, decimal and kind for substitution, paired with the
values-per-line count. -/
def pyChars (f : ArrayFormat) : List Char :=
  '{' :: '0' :: ':' ::
    (natDigits f.width ++ '.' :: (natDigits f.decimal ++ [kindChar f.format, '}']))

/-- The template view as `(values_per_line, template string)`. -/
def ArrayFormat.py (f : ArrayFormat) : Nat × String := (f.npl, ⟨pyChars f⟩)

/-- Modelled from the spec: the field setter for `field_width`.  A request
below the numeric-kind floor is clamped to the floor and flagged with a
non-fatal warning (the returned boolean); it is never rejected. -/
def setWidth (f : ArrayFormat) (w : Nat) : ArrayFormat × Bool :=
  if w < defaultWidth f.dtype then ({ f with width := defaultWidth f.dtype }, true)
  else ({ f with width := w }, false)

/-- Modelled from the spec: the field setter for `decimal_places`, with the
same clamp-and-warn policy as `setWidth`. -/
def setDecimal (f : ArrayFormat) (d : Nat) : ArrayFormat × Bool :=
  if d < defaultDecimal f.dtype then ({ f with decimal := defaultDecimal f.dtype }, true)
  else ({ f with decimal := d }, false)

/-! ### Option-block codec: data model

Modelled from the spec: sub-values are kept as their validated literal
tokens; the coercion to the declared type (float, int, string) is
represented by a typed validity check on the token.  Tokens follow the
solver-canonical form: non-empty, free of whitespace, case-stable under
upper-casing (the option grammar is case-insensitive, and rendering
upper-cases every token per the solver convention). -/

/-- Modelled from the spec: declared types of option sub-values. -/
inductive VType where
  | vint
  | vfloat
  | vstr
deriving DecidableEq

/-- A character admissible inside a canonical token: not a space, not a
newline, stable under upper-casing. -/
def tokenChar (c : Char) : Bool :=
  c != ' ' && c != '\n' && c.toUpper == c

/-- A canonical token: non-empty and made of admissible characters. -/
def tokenOK (t : List Char) : Bool :=
  !t.isEmpty && t.all tokenChar

/-- A non-empty all-digits character list. -/
def digitsOnly (t : List Char) : Bool := !t.isEmpty && t.all Char.isDigit

/-- Shape of an integer literal token: optional sign, then digits. -/
def intShape (t : List Char) : Bool :=
  match t with
  | '-' :: r => digitsOnly r
  | _ => digitsOnly t

/-- Shape of a float literal token: optional sign, then digits with at most
one decimal point and at least one digit. -/
def floatShape (t : List Char) : Bool :=
  match t with
  | '-' :: r => !r.isEmpty && r.all (fun c => c.isDigit || c == '.') &&
      decide (r.count '.' ≤ 1) && r.any Char.isDigit
  | r => !r.isEmpty && r.all (fun c => c.isDigit || c == '.') &&
      decide (r.count '.' ≤ 1) && r.any Char.isDigit

/-- Modelled from the spec: can the token be coerced to the declared type? -/
def VType.valid : VType → List Char → Bool
  | .vint, t => tokenOK t && intShape t
  | .vfloat, t => tokenOK t && floatShape t
  | .vstr, t => tokenOK t

/-- Modelled from the spec: one recognized option of an options spec — its
name and the declared types (hence arity) of its positional sub-values. -/
structure OptDef where
  name : List Char
  vtypes : List VType
deriving DecidableEq

/-- Modelled from the spec: the current state of one recognized option —
whether it is enabled, and the cached sub-value tokens (kept across
disabling so that re-enabling restores them). -/
structure OptState where
  enabled : Bool
  cache : List (List Char)
deriving DecidableEq

/-- Modelled from the spec: an `OptionBlock` — the option spec it was built
against, the per-option states (in spec declaration order), and the
representation mode (`block = true` for BLOCK, `false` for LINE). -/
structure OptionBlock where
  spec : List OptDef
  state : List OptState
  block : Bool
deriving DecidableEq

/-! ### Option-block codec: rendering -/

/-- Join tokens with a separator character. -/
def joinSep (sep : Char) : List (List Char) → List Char
  | [] => []
  | [t] => t
  | t :: ts => t ++ sep :: joinSep sep ts

/-- Split a character list at every occurrence of the separator. -/
def splitSep (sep : Char) : List Char → List (List Char)
  | [] => [[]]
  | c :: cs =>
    if c = sep then [] :: splitSep sep cs
    else
      match splitSep sep cs with
      | t :: ts => (c :: t) :: ts
      | [] => [[c]]

/-- Split at a separator, dropping empty segments (whitespace-style split). -/
def tokenize (sep : Char) (cs : List Char) : List (List Char) :=
  (splitSep sep cs).filter (fun t => !t.isEmpty)

/-- The rendered tokens of one enabled option: its name followed by its
cached sub-values, upper-cased per the solver convention. -/
def entryTokens (d : OptDef) (s : OptState) : List (List Char) :=
  upperTok d.name :: s.cache.map upperTok

/-- The token entries of all currently enabled options, in spec declaration
order (never in insertion order). -/
def enabledEntries : List OptDef → List OptState → List (List (List Char))
  | d :: ds, s :: ss =>
    (if s.enabled then [entryTokens d s] else []) ++ enabledEntries ds ss
  | _, _ => []

/-- The rendered line of each enabled option. -/
def entryLinesOf (spec : List OptDef) (st : List OptState) : List (List Char) :=
  (enabledEntries spec st).map (joinSep ' ')

/-- BLOCK-mode rendering: `OPTIONS`, one line per enabled option, `END`. -/
def blockCharsOf (spec : List OptDef) (st : List OptState) : List Char :=
  joinSep '\n' ("OPTIONS".data :: (entryLinesOf spec st ++ ["END".data]))

/-- LINE-mode rendering: all enabled option names and sub-values
space-joined on a single line, no wrapper. -/
def lineCharsOf (spec : List OptDef) (st : List OptState) : List Char :=
  joinSep ' ' (enabledEntries spec st).flatten

/-- Rendering in the block's current representation mode. -/
def renderChars (b : OptionBlock) : List Char :=
  if b.block then blockCharsOf b.spec b.state else lineCharsOf b.spec b.state

/-- Rendering in the current representation mode, as a string. -/
def OptionBlock.render (b : OptionBlock) : String := ⟨renderChars b⟩

/-- The default display representation of an `OptionBlock`: always the
BLOCK-form text, whatever the representation mode (as the notebook shows
for a block loaded in LINE mode). -/
def OptionBlock.reprStr (b : OptionBlock) : String := ⟨blockCharsOf b.spec b.state⟩

/-- The dedicated single-line accessor: the display representation with the
`OPTIONS`/`END` frame dropped and the interior lines space-joined. -/
def OptionBlock.single_line_options (b : OptionBlock) : String :=
  ⟨joinSep ' ' (((tokenize '\n' b.reprStr.data).drop 1).dropLast)⟩

/-! ### Option-block codec: parsing -/

/-- Check sub-value tokens against the declared types, in declaration
order; the arities must agree exactly. -/
def checkVals : List VType → List (List Char) → Bool
  | [], [] => true
  | ty :: tys, v :: vs => ty.valid v && checkVals tys vs
  | _, _ => false

/-- Case-insensitive lookup of an option name in the spec, returning its
declaration index and definition. -/
def findOptD : List OptDef → List Char → Option (Nat × OptDef)
  | [], _ => none
  | d :: ds, n =>
    if upperTok d.name == upperTok n then some (0, d)
    else (findOptD ds n).map (fun p => (p.1 + 1, p.2))

/-- The all-disabled state: absence of a token means the option is at its
disabled default. -/
def allOff (spec : List OptDef) : List OptState :=
  spec.map fun _ => ⟨false, []⟩

/-- Parse one BLOCK-mode interior line (already tokenized): the first token
names a recognized option, the trailing tokens are its sub-values. -/
def applyEntry (spec : List OptDef) (st : List OptState) :
    List (List Char) → Option (List OptState)
  | [] => none
  | n :: vs =>
    match findOptD spec n with
    | some (i, d) =>
      if checkVals d.vtypes vs then some (st.set i ⟨true, vs⟩) else none
    | none => none

/-- Parse the interior lines of a BLOCK-mode text in order. -/
def applyLines (spec : List OptDef) :
    List OptState → List (List (List Char)) → Option (List OptState)
  | st, [] => some st
  | st, l :: ls =>
    match applyEntry spec st l with
    | some st2 => applyLines spec st2 ls
    | none => none

/-- Parse a LINE-mode token stream: each recognized name consumes as many
following tokens as its declared arity.  Fuel-driven structural recursion
(the fuel bounds the number of entries). -/
def parseLineAux (spec : List OptDef) :
    Nat → List OptState → List (List Char) → Option (List OptState)
  | _, st, [] => some st
  | 0, _, _ :: _ => none
  | fuel + 1, st, n :: rest =>
    match findOptD spec n with
    | some (i, d) =>
      if checkVals d.vtypes (rest.take d.vtypes.length) then
        parseLineAux spec fuel (st.set i ⟨true, rest.take d.vtypes.length⟩)
          (rest.drop d.vtypes.length)
      else none
    | none => none

/-- Parse a LINE-mode token stream starting from the all-disabled state. -/
def parseLineToks (spec : List OptDef) (toks : List (List Char)) :
    Option (List OptState) :=
  parseLineAux spec toks.length (allOff spec) toks

/-- Modelled from the spec: `Parse`.  A text starting with a literal
`OPTIONS` line and ending with a literal `END` line parses in BLOCK mode,
one option entry per interior line; a single line of space-separated tokens
parses in LINE mode.  Unrecognized or ill-typed entries are a parse error
(`none`).  The representation mode is determined by which grammar matched. -/
def parseChars (spec : List OptDef) (cs : List Char) : Option OptionBlock :=
  match tokenize '\n' cs with
  | [] => some ⟨spec, allOff spec, false⟩
  | l :: ls =>
    if upperTok l == "OPTIONS".data then
      if (ls.getLast?).any (fun e => upperTok e == "END".data) then
        (applyLines spec (allOff spec) (ls.dropLast.map (tokenize ' '))).map
          (fun st => ⟨spec, st, true⟩)
      else none
    else
      if ls.isEmpty then
        (parseLineToks spec (tokenize ' ' l)).map (fun st => ⟨spec, st, false⟩)
      else none

/-- String wrapper of `parseChars`. -/
def parse (s : String) (spec : List OptDef) : Option OptionBlock :=
  parseChars spec s.data

/-! ### Option-block codec: construction and attribute access -/

/-- Build the per-option states from a subset of enabled options: one entry
per spec option, `none` for disabled, `some vs` for enabled with sub-value
tokens `vs`. -/
def buildState (O : List (Option (List (List Char)))) : List OptState :=
  O.map fun o =>
    match o with
    | none => ⟨false, []⟩
    | some vs => ⟨true, vs⟩

/-- An `OptionBlock` built programmatically from a subset of enabled
options of the spec, in the given representation mode. -/
def mkBlock (spec : List OptDef) (O : List (Option (List (List Char))))
    (blockMode : Bool) : OptionBlock :=
  ⟨spec, buildState O, blockMode⟩

/-- Modelled from the spec: constructing an `OptionBlock` from a one-line
string representation of the options, with an explicit mode flag. -/
def ofLine (optLine : String) (spec : List OptDef) (blockMode : Bool) :
    Option OptionBlock :=
  (parseLineToks spec (tokenize ' ' optLine.data)).map fun st => ⟨spec, st, blockMode⟩

/-- Apply a function to the state at one position. -/
def modifyState : List OptState → Nat → (OptState → OptState) → List OptState
  | [], _, _ => []
  | s :: ss, 0, f => f s :: ss
  | s :: ss, i + 1, f => s :: modifyState ss i f

/-- Modelled from the spec: attribute-style set of a recognized option with
a boolean.  `true` enables it (the cached sub-values, if any, are kept and
restored in the rendering); `false` disables it without discarding the
cached sub-values.  An unrecognized name is an attribute error (`none`). -/
def setOptionFlag (b : OptionBlock) (name : List Char) (v : Bool) :
    Option OptionBlock :=
  match findOptD b.spec name with
  | some (i, _) =>
    some ⟨b.spec, modifyState b.state i (fun s => ⟨v, s.cache⟩), b.block⟩
  | none => none

/-- Modelled from the spec: attribute-style set of a recognized option with
new sub-values, enabling it; the values are type-checked against the spec.
An unrecognized name is an attribute error (`none`). -/
def setOptionVals (b : OptionBlock) (name : List Char) (vs : List (List Char)) :
    Option OptionBlock :=
  match findOptD b.spec name with
  | some (i, d) =>
    if checkVals d.vtypes vs then
      some ⟨b.spec, modifyState b.state i (fun _ => ⟨true, vs⟩), b.block⟩
    else none
  | none => none

/-- Attribute-style get of a recognized option: its current state. -/
def getOption (b : OptionBlock) (name : List Char) : Option OptState :=
  match findOptD b.spec name with
  | some (i, _) => b.state[i]?
  | none => none

/-- Assignment to the representation mode. -/
def setBlockMode (b : OptionBlock) (m : Bool) : OptionBlock :=
  { b with block := m }

/-! ### Well-formedness -/

/-- A well-formed option spec: canonical names, none of them colliding with
the literal `OPTIONS`/`END` frame, pairwise distinct case-insensitively. -/
def specOK : List OptDef → Bool
  | [] => true
  | d :: ds =>
    tokenOK d.name && upperTok d.name != "OPTIONS".data &&
    upperTok d.name != "END".data &&
    ds.all (fun e => upperTok e.name != upperTok d.name) && specOK ds

/-- A well-formed state for a spec: one state per option, enabled options
hold valid sub-values, disabled options hold the empty cache. -/
def stOK : List OptDef → List OptState → Bool
  | [], [] => true
  | d :: ds, s :: ss =>
    (if s.enabled then checkVals d.vtypes s.cache else s.cache.isEmpty) && stOK ds ss
  | _, _ => false

/-- A well-formed enabled-option subset for a spec: one entry per option,
enabled entries hold valid sub-values. -/
def subsetOK : List OptDef → List (Option (List (List Char))) → Bool
  | [], [] => true
  | d :: ds, o :: os =>
    (match o with
     | none => true
     | some vs => checkVals d.vtypes vs) && subsetOK ds os
  | _, _ => false

/-- A token stream that segments into well-typed option entries of the
spec: empty, or a recognized name followed by its declared number of valid
sub-value tokens and a further such stream. -/
inductive Seg (ds : List OptDef) : List (List Char) → Prop where
  | nil : Seg ds []
  | cons (i : Nat) (d : OptDef) (n : List Char) (vs rest : List (List Char)) :
      findOptD ds n = some (i, d) → checkVals d.vtypes vs = true →
      Seg ds rest → Seg ds (n :: (vs ++ rest))

/-! ### Concrete specs and blocks from the notebook scenarios -/

/-- A UZF-style option spec: two flags and one float-valued option. -/
def uzfSpec : List OptDef :=
  [⟨"NOSURFLEAK".data, []⟩, ⟨"ETSQUARE".data, [.vfloat]⟩, ⟨"SAVEFINF".data, []⟩]

/-- The UZF option block of the notebook: all three options enabled,
`ETSQUARE` with sub-value `0.2`, BLOCK mode. -/
def uzfBlock : OptionBlock :=
  ⟨uzfSpec, [⟨true, []⟩, ⟨true, ["0.2".data]⟩, ⟨true, []⟩], true⟩

/-- A WEL-style option spec: a two-valued option, an auxiliary-variable
option, and a flag, in declaration order. -/
def welSpec : List OptDef :=
  [⟨"SPECIFY".data, [.vfloat, .vint]⟩, ⟨"AUX".data, [.vstr]⟩, ⟨"NOPRINT".data, []⟩]

/-- The WEL option block built from the line `specify 0.1 20`, BLOCK mode. -/
def welBlock0 : OptionBlock :=
  ⟨welSpec, [⟨true, ["0.1".data, "20".data]⟩, ⟨false, []⟩, ⟨false, []⟩], true⟩

/-- The WEL option block after additionally enabling `NOPRINT` and the
auxiliary variable `IFACE`. -/
def welBlock2 : OptionBlock :=
  ⟨welSpec, [⟨true, ["0.1".data, "20".data]⟩, ⟨true, ["IFACE".data]⟩, ⟨true, []⟩], true⟩

/-! ## Theorems -/

/-! ### Generic list and digit lemmas -/

theorem takeWhile_app {α : Type} (p : α → Bool) (l r : List α)
    (h : ∀ x ∈ l, p x = true) : (l ++ r).takeWhile p = l ++ r.takeWhile p := by
  induction l with
  | nil => simp
  | cons a l ih =>
    simp only [List.cons_append, List.takeWhile_cons, h a (by simp)]
    simp [ih fun x hx => h x (by simp [hx])]

theorem dropWhile_app {α : Type} (p : α → Bool) (l r : List α)
    (h : ∀ x ∈ l, p x = true) : (l ++ r).dropWhile p = r.dropWhile p := by
  induction l with
  | nil => simp
  | cons a l ih =>
    simp only [List.cons_append, List.dropWhile_cons, h a (by simp)]
    exact ih fun x hx => h x (by simp [hx])

theorem digit_toUpper {c : Char} (h : c.isDigit = true) : c.toUpper = c := by
  unfold Char.toUpper
  unfold Char.isDigit at h
  simp only [Bool.and_eq_true, decide_eq_true_eq] at h
  obtain ⟨ha, hb⟩ := h
  rw [if_neg]
  intro hcon
  obtain ⟨h1, h2⟩ := hcon
  simp only [Char.toNat, UInt32.le_def, BitVec.le_def] at ha hb h1 h2
  simp only [UInt32.toNat] at h1 h2
  have e1 : (UInt32.toBitVec 48).toNat = 48 := rfl
  have e2 : (UInt32.toBitVec 57).toNat = 57 := rfl
  omega

theorem digitChar_isDigit {n : Nat} (h : n < 10) : (digitChar n).isDigit = true := by
  interval_cases n <;> decide

theorem digitVal_digitChar {n : Nat} (h : n < 10) : digitVal (digitChar n) = n := by
  interval_cases n <;> decide

theorem natDigitsAux_all_digit :
    ∀ n fuel, n < fuel → ∀ c ∈ natDigitsAux fuel n, c.isDigit = true := by
  intro n
  induction n using Nat.strong_induction_on with
  | _ n ih =>
    intro fuel hfuel c hc
    match fuel with
    | 0 => omega
    | f + 1 =>
      simp only [natDigitsAux] at hc
      by_cases h10 : n < 10
      · rw [if_pos h10] at hc
        simp only [List.mem_singleton] at hc
        subst hc
        exact digitChar_isDigit h10
      · rw [if_neg h10] at hc
        have hdlt : n / 10 < n := Nat.div_lt_self (by omega) (by omega)
        rcases List.mem_append.1 hc with h1 | h2
        · exact ih (n / 10) hdlt f (by omega) c h1
        · simp only [List.mem_singleton] at h2
          subst h2
          exact digitChar_isDigit (Nat.mod_lt _ (by omega))

theorem natDigitsAux_ne_nil :
    ∀ n fuel, n < fuel → natDigitsAux fuel n ≠ [] := by
  intro n fuel hfuel
  match fuel with
  | 0 => omega
  | f + 1 =>
    simp only [natDigitsAux]
    by_cases h10 : n < 10
    · rw [if_pos h10]; simp
    · rw [if_neg h10]; simp

theorem natDigitsAux_foldl :
    ∀ n fuel, n < fuel →
      (natDigitsAux fuel n).foldl (fun a c => a * 10 + digitVal c) 0 = n := by
  intro n
  induction n using Nat.strong_induction_on with
  | _ n ih =>
    intro fuel hfuel
    match fuel with
    | 0 => omega
    | f + 1 =>
      simp only [natDigitsAux]
      by_cases h10 : n < 10
      · rw [if_pos h10]
        simp only [List.foldl_cons, List.foldl_nil]
        rw [digitVal_digitChar h10]
        omega
      · rw [if_neg h10]
        have hdlt : n / 10 < n := Nat.div_lt_self (by omega) (by omega)
        rw [List.foldl_append]
        rw [ih (n / 10) hdlt f (by omega)]
        simp only [List.foldl_cons, List.foldl_nil]
        rw [digitVal_digitChar (Nat.mod_lt _ (by omega))]
        omega

theorem natDigits_all_digit (n : Nat) : ∀ c ∈ natDigits n, c.isDigit = true :=
  natDigitsAux_all_digit n (n + 1) (Nat.lt_succ_self n)

theorem natDigits_ne_nil (n : Nat) : natDigits n ≠ [] :=
  natDigitsAux_ne_nil n (n + 1) (Nat.lt_succ_self n)

theorem parseNat_natDigits (n : Nat) : parseNat (natDigits n) = some n := by
  unfold parseNat
  rw [if_pos]
  · rw [natDigits, natDigitsAux_foldl n (n + 1) (Nat.lt_succ_self n)]
  · simp only [Bool.and_eq_true, Bool.not_eq_true', List.all_eq_true]
    refine ⟨?_, natDigits_all_digit n⟩
    cases h : natDigits n with
    | nil => exact absurd h (natDigits_ne_nil n)
    | cons a l => rfl

/-! ### Array-format descriptor: round trip through the Fortran view -/

theorem parseFixedBody_natDigits (n w d : Nat) (K : FormatKind) :
    parseFixedBody
      (natDigits n ++ (kindChar K :: (natDigits w ++ '.' :: (natDigits d ++ [')'])))) =
      some (n, K, w, d) := by
  have hkdig : (kindChar K).isDigit = false := by cases K <;> rfl
  have hdot : ('.').isDigit = false := by decide
  have hpar : (')').isDigit = false := by decide
  unfold parseFixedBody
  rw [dropWhile_app _ _ _ (natDigits_all_digit n)]
  simp only [List.dropWhile_cons, hkdig, Bool.false_eq_true, if_false]
  rw [takeWhile_app _ _ _ (natDigits_all_digit n)]
  simp only [List.takeWhile_cons, hkdig, Bool.false_eq_true, if_false,
    List.append_nil]
  have hko : kindOf (kindChar K) = some K := by cases K <;> rfl
  rw [hko]
  rw [dropWhile_app _ _ _ (natDigits_all_digit w)]
  simp only [List.dropWhile_cons, hdot, Bool.false_eq_true, if_false]
  rw [takeWhile_app _ _ _ (natDigits_all_digit w)]
  simp only [List.takeWhile_cons, hdot, Bool.false_eq_true, if_false,
    List.append_nil]
  rw [dropWhile_app _ _ _ (natDigits_all_digit d)]
  simp only [List.dropWhile_cons, hpar, Bool.false_eq_true, if_false]
  rw [takeWhile_app _ _ _ (natDigits_all_digit d)]
  simp only [List.takeWhile_cons, hpar, Bool.false_eq_true, if_false,
    List.append_nil]
  simp [parseNat_natDigits]

theorem setFortranChars_free_not_taken (rest : List Char)
    (a : Char) (ha : a.isDigit = true) (hrest : rest = a :: rest.tail) :
    (upperTok rest == "FREE)".data) = false := by
  rw [beq_eq_false_iff_ne]
  intro hcon
  rw [hrest] at hcon
  simp only [upperTok, List.map_cons] at hcon
  have hhead : a.toUpper = 'F' := by
    have := congrArg (fun l => l.headD ' ') hcon
    simpa using this
  rw [digit_toUpper ha] at hhead
  subst hhead
  simp at ha

/-! ### Claims C5, C6, C7, C8 -/

/-- C5: setting from the Fortran descriptor `(20F10.4)` (case-insensitively,
e.g. `(20f10.4)`) leaves the ArrayFormat with `values_per_line` 20, format
kind `F`, field width 10, decimal places 4, and `is_free_format` false,
whatever the prior state; the template view of the resulting state is
`(20, "{0:10.4F}")`. -/
theorem C5_fortran_descriptor_20F10_4 :
    (∀ f : ArrayFormat,
      setFromFortranDescriptor f "(20f10.4)" =
        some { f with free := false, npl := 20, format := .F, width := 10, decimal := 4 }) ∧
    (∀ f : ArrayFormat,
      setFromFortranDescriptor f "(20F10.4)" =
        some { f with free := false, npl := 20, format := .F, width := 10, decimal := 4 }) ∧
    setFromFortranDescriptor ArrayFormat.defaultFloat "(20f10.4)" =
      some ⟨.float, 20, .F, 10, 4, false, false⟩ ∧
    ArrayFormat.py ⟨.float, 20, .F, 10, 4, false, false⟩ = (20, "\x7b0:10.4F\x7d") :=
  ⟨fun _ => rfl, fun _ => rfl, by decide, by decide⟩

/-- C6: for every ArrayFormat (hence every prior width and decimal value),
setting from the descriptor `(FREE)` sets `is_free_format` and resets width
and decimal to the numeric-kind defaults, which for a float array are width
15 and decimal 6; nothing else changes. -/
theorem C6_free_resets_defaults :
    (∀ f : ArrayFormat,
      setFromFortranDescriptor f "(FREE)" =
        some { f with free := true, width := defaultWidth f.dtype,
                      decimal := defaultDecimal f.dtype }) ∧
    defaultWidth NumKind.float = 15 ∧ defaultDecimal NumKind.float = 6 :=
  ⟨fun _ => rfl, rfl, rfl⟩

/-- C7: for every ArrayFormat state (satisfying the data-model invariant
that free format keeps width/decimal at the numeric-kind defaults), feeding
the Fortran view back into the descriptor setter is the identity. -/
theorem C7_fortran_view_roundtrip (f : ArrayFormat)
    (hinv : f.free = true →
      f.width = defaultWidth f.dtype ∧ f.decimal = defaultDecimal f.dtype) :
    setFromFortranDescriptor f f.fortran = some f := by
  show setFortranChars f (fortranChars f) = some f
  cases hf : f.free with
  | true =>
    obtain ⟨hw, hd⟩ := hinv hf
    have hfc : fortranChars f = "(FREE)".data := by rw [fortranChars, if_pos hf]
    rw [hfc]
    have : setFortranChars f "(FREE)".data =
        some { f with free := true, width := defaultWidth f.dtype,
                      decimal := defaultDecimal f.dtype } := rfl
    rw [this]
    cases f
    simp only at hw hd hf
    simp [hw, hd, hf]
  | false =>
    have hfc : fortranChars f =
        '(' :: (natDigits f.npl ++ (kindChar f.format ::
          (natDigits f.width ++ '.' :: (natDigits f.decimal ++ [')'])))) := by
      rw [fortranChars, if_neg (by simp [hf])]
    rw [hfc]
    obtain ⟨a, A, hA⟩ : ∃ a A, natDigits f.npl = a :: A := by
      cases h : natDigits f.npl with
      | nil => exact absurd h (natDigits_ne_nil _)
      | cons a A => exact ⟨a, A, rfl⟩
    have hadig : a.isDigit = true := natDigits_all_digit f.npl a (by rw [hA]; simp)
    have hfree : (upperTok (natDigits f.npl ++ (kindChar f.format ::
        (natDigits f.width ++ '.' :: (natDigits f.decimal ++ [')'])))) ==
        "FREE)".data) = false :=
      setFortranChars_free_not_taken _ a hadig (by rw [hA]; rfl)
    unfold setFortranChars
    simp only
    rw [if_pos trivial, if_neg (by simp [hfree])]
    rw [parseFixedBody_natDigits]
    cases f
    simp only at hf
    simp [hf]

/-- Witness for C7 at the concrete fixed-format state `(20F10.4)`. -/
theorem C7_fortran_view_roundtrip_witness :
    ((⟨.float, 20, .F, 10, 4, false, false⟩ : ArrayFormat).free = true →
      (⟨.float, 20, .F, 10, 4, false, false⟩ : ArrayFormat).width = 15 ∧
      (⟨.float, 20, .F, 10, 4, false, false⟩ : ArrayFormat).decimal = 6) ∧
    setFromFortranDescriptor (⟨.float, 20, .F, 10, 4, false, false⟩ : ArrayFormat)
        (ArrayFormat.fortran ⟨.float, 20, .F, 10, 4, false, false⟩) =
      some ⟨.float, 20, .F, 10, 4, false, false⟩ :=
  ⟨by decide, C7_fortran_view_roundtrip ⟨.float, 20, .F, 10, 4, false, false⟩ (by decide)⟩

/-- C8: for every ArrayFormat, assigning a field width below the
numeric-kind floor, or decimal places below the numeric-kind floor, never
fails: the setter in question clamps to the floor, flags a non-fatal
warning, and subsequent reads report the floor rather than the requested
value.  The two setters are independent: each clamps under its own
below-floor hypothesis alone, so the width part applies to integer-kind
formats (floor 10) just as to float-kind ones. -/
theorem C8_below_floor_clamps_with_warning (f : ArrayFormat) (w d : Nat) :
    (w < defaultWidth f.dtype →
      setWidth f w = ({ f with width := defaultWidth f.dtype }, true) ∧
      (setWidth f w).1.width = defaultWidth f.dtype) ∧
    (d < defaultDecimal f.dtype →
      setDecimal f d = ({ f with decimal := defaultDecimal f.dtype }, true) ∧
      (setDecimal f d).1.decimal = defaultDecimal f.dtype) := by
  constructor
  · intro hw
    unfold setWidth
    rw [if_pos hw]
    exact ⟨rfl, rfl⟩
  · intro hd
    unfold setDecimal
    rw [if_pos hd]
    exact ⟨rfl, rfl⟩

/-- Witness for C8: the notebook scenario (width 9 and decimal 1 requested
on the default float format, floors 15 and 6), and a width 5 request on an
integer-kind format (floor 10). -/
theorem C8_below_floor_clamps_with_warning_witness :
    (9 < defaultWidth ArrayFormat.defaultFloat.dtype ∧
      setWidth ArrayFormat.defaultFloat 9 =
        ({ ArrayFormat.defaultFloat with width := 15 }, true)) ∧
    (1 < defaultDecimal ArrayFormat.defaultFloat.dtype ∧
      setDecimal ArrayFormat.defaultFloat 1 =
        ({ ArrayFormat.defaultFloat with decimal := 6 }, true)) ∧
    (5 < defaultWidth (⟨.int, 20, .I, 10, 0, false, false⟩ : ArrayFormat).dtype ∧
      setWidth (⟨.int, 20, .I, 10, 0, false, false⟩ : ArrayFormat) 5 =
        (⟨.int, 20, .I, 10, 0, false, false⟩, true)) :=
  ⟨⟨by decide,
    ((C8_below_floor_clamps_with_warning ArrayFormat.defaultFloat 9 1).1
      (by decide)).1⟩,
   ⟨by decide,
    ((C8_below_floor_clamps_with_warning ArrayFormat.defaultFloat 9 1).2
      (by decide)).1⟩,
   ⟨by decide,
    ((C8_below_floor_clamps_with_warning ⟨.int, 20, .I, 10, 0, false, false⟩ 5 0).1
      (by decide)).1⟩⟩

/-! ### Token and separator lemmas -/

theorem tokenOK_ne_nil {t : List Char} (h : tokenOK t = true) : t ≠ [] := by
  unfold tokenOK at h
  cases t with
  | nil => simp at h
  | cons a l => simp

theorem tokenOK_mem {t : List Char} (h : tokenOK t = true) :
    ∀ c ∈ t, c ≠ ' ' ∧ c ≠ '\n' ∧ c.toUpper = c := by
  unfold tokenOK at h
  simp only [Bool.and_eq_true, List.all_eq_true] at h
  intro c hc
  have hch := h.2 c hc
  unfold tokenChar at hch
  simp only [Bool.and_eq_true, bne_iff_ne, beq_iff_eq] at hch
  exact ⟨hch.1.1, hch.1.2, hch.2⟩

theorem upperTok_eq_self {t : List Char} (h : ∀ c ∈ t, c.toUpper = c) :
    upperTok t = t := by
  unfold upperTok
  rw [List.map_congr_left h]
  simp

theorem tokenOK_upper {t : List Char} (h : tokenOK t = true) : upperTok t = t :=
  upperTok_eq_self fun c hc => (tokenOK_mem h c hc).2.2

theorem joinSep_cons_cons (sep : Char) (t t' : List Char) (ts : List (List Char)) :
    joinSep sep (t :: t' :: ts) = t ++ sep :: joinSep sep (t' :: ts) := rfl

theorem joinSep_ne_nil {sep : Char} {t : List Char} {ts : List (List Char)}
    (h : t ≠ []) : joinSep sep (t :: ts) ≠ [] := by
  cases ts with
  | nil => exact h
  | cons t' ts => simp [joinSep_cons_cons, h]

theorem mem_joinSep (sep c : Char) :
    ∀ ts, c ∈ joinSep sep ts → c = sep ∨ ∃ t ∈ ts, c ∈ t
  | [] => by simp [joinSep]
  | [t] => by
    intro h
    exact Or.inr ⟨t, by simp, h⟩
  | t :: t' :: ts => by
    intro h
    rw [joinSep_cons_cons] at h
    rcases List.mem_append.1 h with h1 | h2
    · exact Or.inr ⟨t, by simp, h1⟩
    · rcases List.mem_cons.1 h2 with h3 | h4
      · exact Or.inl h3
      · rcases mem_joinSep sep c (t' :: ts) h4 with h5 | ⟨u, hu, hcu⟩
        · exact Or.inl h5
        · exact Or.inr ⟨u, List.mem_cons_of_mem _ hu, hcu⟩

theorem joinSep_append (sep : Char) :
    ∀ xs ys, xs ≠ [] → ys ≠ [] →
      joinSep sep (xs ++ ys) = joinSep sep xs ++ sep :: joinSep sep ys
  | [], _, hx, _ => absurd rfl hx
  | [t], ys, _, hy => by
    cases ys with
    | nil => exact absurd rfl hy
    | cons y ys => rfl
  | t :: t' :: xs, ys, _, hy => by
    have ih := joinSep_append sep (t' :: xs) ys (by simp) hy
    show joinSep sep (t :: (t' :: xs ++ ys)) = _
    rw [show t' :: xs ++ ys = t' :: (xs ++ ys) from rfl]
    rw [joinSep_cons_cons, joinSep_cons_cons]
    rw [show t' :: (xs ++ ys) = t' :: xs ++ ys from rfl, ih]
    simp

theorem flatten_cons_ne_nil (p : List (List Char)) (parts : List (List (List Char)))
    (hp : p ≠ []) : (p :: parts).flatten ≠ [] := by
  rw [List.flatten_cons]
  intro hcon
  exact hp (List.append_eq_nil.1 hcon).1

theorem joinSep_map_flatten (sep : Char) :
    ∀ parts : List (List (List Char)), (∀ p ∈ parts, p ≠ []) →
      joinSep sep (parts.map (joinSep sep)) = joinSep sep parts.flatten
  | [], _ => rfl
  | [p], _ => by
    show joinSep sep p = joinSep sep [p].flatten
    simp [List.flatten_cons]
  | p :: p' :: parts, h => by
    have ih : joinSep sep (joinSep sep p' :: parts.map (joinSep sep)) =
        joinSep sep (p' :: parts).flatten := by
      rw [← List.map_cons]
      exact joinSep_map_flatten sep (p' :: parts) fun u hu =>
        h u (List.mem_cons_of_mem _ hu)
    have hp : p ≠ [] := h p (by simp)
    have hp' : p' ≠ [] := h p' (by simp)
    rw [List.map_cons, List.map_cons, List.flatten_cons]
    rw [joinSep_cons_cons, ih]
    rw [joinSep_append sep p (p' :: parts).flatten hp (flatten_cons_ne_nil p' parts hp')]

theorem splitSep_no_sep (sep : Char) :
    ∀ t, (∀ c ∈ t, c ≠ sep) → splitSep sep t = [t]
  | [], _ => rfl
  | c :: t, h => by
    have ih := splitSep_no_sep sep t fun c' hc' => h c' (List.mem_cons_of_mem _ hc')
    unfold splitSep
    rw [if_neg (h c (List.mem_cons_self _ _)), ih]

theorem splitSep_headSeg (sep : Char) :
    ∀ t cs, (∀ c ∈ t, c ≠ sep) →
      splitSep sep (t ++ sep :: cs) = t :: splitSep sep cs
  | [], cs, _ => by
    show splitSep sep (sep :: cs) = [] :: splitSep sep cs
    rw [splitSep, if_pos rfl]
  | c :: t, cs, h => by
    have ih := splitSep_headSeg sep t cs fun c' hc' => h c' (List.mem_cons_of_mem _ hc')
    show splitSep sep (c :: (t ++ sep :: cs)) = _
    rw [splitSep, if_neg (h c (List.mem_cons_self _ _)), ih]

theorem tokenize_joinSep (sep : Char) :
    ∀ ts, (∀ t ∈ ts, t ≠ [] ∧ ∀ c ∈ t, c ≠ sep) →
      tokenize sep (joinSep sep ts) = ts
  | [], _ => rfl
  | [t], h => by
    obtain ⟨hne, hns⟩ := h t (by simp)
    unfold tokenize
    rw [show joinSep sep [t] = t from rfl, splitSep_no_sep sep t hns]
    cases t with
    | nil => exact absurd rfl hne
    | cons a l => rfl
  | t :: t' :: ts, h => by
    obtain ⟨hne, hns⟩ := h t (by simp)
    have ih := tokenize_joinSep sep (t' :: ts) fun u hu =>
      h u (List.mem_cons_of_mem _ hu)
    unfold tokenize at ih ⊢
    rw [joinSep_cons_cons, splitSep_headSeg sep t _ hns, List.filter_cons]
    rw [show (!t.isEmpty) = true by cases t; exact absurd rfl hne; rfl]
    rw [if_pos rfl, ih]

theorem tokenize_single {sep : Char} {cs : List Char} (hne : cs ≠ [])
    (hns : ∀ c ∈ cs, c ≠ sep) : tokenize sep cs = [cs] := by
  unfold tokenize
  rw [splitSep_no_sep sep cs hns, List.filter_cons]
  rw [show (!cs.isEmpty) = true by cases cs; exact absurd rfl hne; rfl]
  rw [if_pos rfl]
  rfl

/-! ### Claims C2, C4, C9 -/

/-- C2: parsing the notebook's UZF block text against the UZF-style spec
yields the option block with `nosurfleak` true, `etsquare` holding `0.2`,
`savefinf` true, in BLOCK representation mode; rendering that block back
reproduces the input text byte for byte. -/
theorem C2_uzf_block_scenario :
    parse "OPTIONS\nNOSURFLEAK\nETSQUARE 0.2\nSAVEFINF\nEND" uzfSpec = some uzfBlock ∧
    getOption uzfBlock "NOSURFLEAK".data = some ⟨true, []⟩ ∧
    getOption uzfBlock "ETSQUARE".data = some ⟨true, ["0.2".data]⟩ ∧
    getOption uzfBlock "SAVEFINF".data = some ⟨true, []⟩ ∧
    uzfBlock.block = true ∧
    uzfBlock.render = "OPTIONS\nNOSURFLEAK\nETSQUARE 0.2\nSAVEFINF\nEND" := by
  refine ⟨by decide, by decide, by decide, by decide, rfl, by decide⟩

/-- C4: an option block built from the line `specify 0.1 20` with
`block = true` renders as the three lines `OPTIONS`, `SPECIFY 0.1 20`,
`END`; after additionally setting the `noprint` flag and then the
auxiliary-variable option, LINE-mode rendering emits all three enabled
options space-joined on one single line without the `OPTIONS`/`END`
wrapper, ordered by the spec declaration order (`SPECIFY`, `AUX`,
`NOPRINT`) rather than the insertion order (`NOPRINT` was set before
`AUX`). -/
theorem C4_wel_scenario :
    ofLine "specify 0.1 20" welSpec true = some welBlock0 ∧
    welBlock0.render = "OPTIONS\nSPECIFY 0.1 20\nEND" ∧
    (setOptionFlag welBlock0 "NOPRINT".data true).bind
        (fun b1 => setOptionVals b1 "AUX".data ["IFACE".data]) = some welBlock2 ∧
    OptionBlock.render (setBlockMode welBlock2 false) =
      "SPECIFY 0.1 20 AUX IFACE NOPRINT" := by
  refine ⟨by decide, by decide, by decide, by decide⟩

/-- C9: switching the representation mode to the other mode and back, with
no other mutation, returns the block to its exact original state — in
particular the enabled-option set is preserved and the rendering is
identical to the original mode's rendering. -/
theorem C9_mode_toggle_roundtrip (b : OptionBlock) :
    setBlockMode (setBlockMode b (!b.block)) b.block = b ∧
    OptionBlock.render (setBlockMode (setBlockMode b (!b.block)) b.block) = b.render ∧
    (setBlockMode (setBlockMode b (!b.block)) b.block).state = b.state := by
  cases b
  exact ⟨rfl, rfl, rfl⟩

/-! ### Spec, state and entry lemmas -/

theorem checkVals_length :
    ∀ tys vs, checkVals tys vs = true → List.length vs = List.length tys
  | [], [], _ => rfl
  | [], _ :: _, h => by simp [checkVals] at h
  | _ :: _, [], h => by simp [checkVals] at h
  | ty :: tys, v :: vs, h => by
    unfold checkVals at h
    simp only [Bool.and_eq_true] at h
    simp [checkVals_length tys vs h.2]

theorem valid_tokenOK {ty : VType} {v : List Char} (h : ty.valid v = true) :
    tokenOK v = true := by
  cases ty <;> simp only [VType.valid, Bool.and_eq_true] at h
  · exact h.1
  · exact h.1
  · exact h

theorem checkVals_tokenOK :
    ∀ tys vs, checkVals tys vs = true → ∀ v ∈ vs, tokenOK v = true
  | _, [], _ => by simp
  | [], _ :: _, h => by simp [checkVals] at h
  | ty :: tys, v :: vs, h => by
    unfold checkVals at h
    simp only [Bool.and_eq_true] at h
    intro u hu
    rcases List.mem_cons.1 hu with h1 | h2
    · subst h1; exact valid_tokenOK h.1
    · exact checkVals_tokenOK tys vs h.2 u h2

theorem specOK_cons {d : OptDef} {ds : List OptDef} (h : specOK (d :: ds) = true) :
    tokenOK d.name = true ∧ upperTok d.name ≠ "OPTIONS".data ∧
    upperTok d.name ≠ "END".data ∧
    (∀ e ∈ ds, upperTok e.name ≠ upperTok d.name) ∧ specOK ds = true := by
  unfold specOK at h
  simp only [Bool.and_eq_true, List.all_eq_true, bne_iff_ne] at h
  tauto

theorem stOK_cons {d : OptDef} {ds : List OptDef} {s : OptState} {ss : List OptState}
    (h : stOK (d :: ds) (s :: ss) = true) :
    (s.enabled = true → checkVals d.vtypes s.cache = true) ∧
    (s.enabled = false → s.cache = []) ∧ stOK ds ss = true := by
  unfold stOK at h
  simp only [Bool.and_eq_true] at h
  obtain ⟨h1, h2⟩ := h
  refine ⟨?_, ?_, h2⟩ <;> intro hs <;> simp [hs] at h1
  · exact h1
  · simpa using h1

theorem stOK_nil_left {st : List OptState} (h : stOK [] st = true) : st = [] := by
  cases st with
  | nil => rfl
  | cons s ss => simp [stOK] at h

theorem stOK_cons_shape {d : OptDef} {ds : List OptDef} {st : List OptState}
    (h : stOK (d :: ds) st = true) : ∃ s ss, st = s :: ss := by
  cases st with
  | nil => simp [stOK] at h
  | cons s ss => exact ⟨s, ss, rfl⟩

theorem upperToks_eq_self {ts : List (List Char)}
    (h : ∀ t ∈ ts, tokenOK t = true) : ts.map upperTok = ts := by
  rw [List.map_congr_left fun t ht => tokenOK_upper (h t ht)]
  simp

theorem entryTokens_eq {d : OptDef} {s : OptState} (hn : tokenOK d.name = true)
    (hc : ∀ v ∈ s.cache, tokenOK v = true) :
    entryTokens d s = d.name :: s.cache := by
  unfold entryTokens
  rw [tokenOK_upper hn, upperToks_eq_self hc]

theorem enabledEntries_cons (d : OptDef) (ds : List OptDef) (s : OptState)
    (ss : List OptState) :
    enabledEntries (d :: ds) (s :: ss) =
      (if s.enabled = true then [entryTokens d s] else []) ++ enabledEntries ds ss := rfl

theorem entries_shape :
    ∀ spec st, specOK spec = true → stOK spec st = true →
      ∀ e ∈ enabledEntries spec st,
        ∃ (d : OptDef) (s : OptState),
          d ∈ spec ∧ s.enabled = true ∧ checkVals d.vtypes s.cache = true ∧
          e = d.name :: s.cache ∧ tokenOK d.name = true
  | [], st, _, hst => by
    rw [stOK_nil_left hst]
    simp [enabledEntries]
  | d :: ds, st, hspec, hst => by
    obtain ⟨s, ss, rfl⟩ := stOK_cons_shape hst
    obtain ⟨hn, _, _, _, hspec'⟩ := specOK_cons hspec
    obtain ⟨hen, _, hst'⟩ := stOK_cons hst
    intro e he
    rw [enabledEntries_cons] at he
    rcases List.mem_append.1 he with h1 | h2
    · cases hs : s.enabled with
      | false => rw [if_neg (by simp [hs])] at h1; simp at h1
      | true =>
        rw [if_pos hs] at h1
        simp only [List.mem_singleton] at h1
        subst h1
        have hcv := hen hs
        refine ⟨d, s, by simp, hs, hcv, ?_, hn⟩
        exact entryTokens_eq hn (checkVals_tokenOK _ _ hcv)
    · obtain ⟨d', s', hd', hs', hcv', he', hn'⟩ :=
        entries_shape ds ss hspec' hst' e h2
      exact ⟨d', s', List.mem_cons_of_mem _ hd', hs', hcv', he', hn'⟩

theorem entries_ne_nil {spec : List OptDef} {st : List OptState}
    (hspec : specOK spec = true) (hst : stOK spec st = true) :
    ∀ e ∈ enabledEntries spec st, e ≠ [] := by
  intro e he
  obtain ⟨d, s, _, _, _, he', _⟩ := entries_shape spec st hspec hst e he
  rw [he']
  simp

theorem entries_tokens_ok {spec : List OptDef} {st : List OptState}
    (hspec : specOK spec = true) (hst : stOK spec st = true) :
    ∀ e ∈ enabledEntries spec st, ∀ t ∈ e, tokenOK t = true := by
  intro e he t ht
  obtain ⟨d, s, _, _, hcv, he', hn⟩ := entries_shape spec st hspec hst e he
  rw [he'] at ht
  rcases List.mem_cons.1 ht with h1 | h2
  · subst h1; exact hn
  · exact checkVals_tokenOK _ _ hcv t h2

theorem entryLines_ok {spec : List OptDef} {st : List OptState}
    (hspec : specOK spec = true) (hst : stOK spec st = true) :
    ∀ l ∈ entryLinesOf spec st, l ≠ [] ∧ ∀ c ∈ l, c ≠ '\n' := by
  intro l hl
  unfold entryLinesOf at hl
  obtain ⟨e, he, rfl⟩ := List.mem_map.1 hl
  have hene := entries_ne_nil hspec hst e he
  have htok := entries_tokens_ok hspec hst e he
  constructor
  · cases e with
    | nil => exact absurd rfl hene
    | cons t ts => exact joinSep_ne_nil (tokenOK_ne_nil (htok t (by simp)))
  · intro c hc
    rcases mem_joinSep ' ' c e hc with h1 | ⟨t, ht, hct⟩
    · subst h1; decide
    · exact (tokenOK_mem (htok t ht) c hct).2.1

theorem tokenize_block (spec : List OptDef) (st : List OptState)
    (hspec : specOK spec = true) (hst : stOK spec st = true) :
    tokenize '\n' (blockCharsOf spec st) =
      "OPTIONS".data :: (entryLinesOf spec st ++ ["END".data]) := by
  unfold blockCharsOf
  apply tokenize_joinSep
  intro l hl
  rcases List.mem_cons.1 hl with h1 | h2
  · subst h1
    exact ⟨by decide, by decide⟩
  · rcases List.mem_append.1 h2 with h3 | h4
    · exact entryLines_ok hspec hst l h3
    · simp only [List.mem_singleton] at h4
      subst h4
      exact ⟨by decide, by decide⟩

/-! ### modifyState and findOptD lemmas -/

theorem modifyState_fuse :
    ∀ (st : List OptState) (i : Nat) (f g : OptState → OptState),
      modifyState (modifyState st i f) i g = modifyState st i (fun s => g (f s))
  | [], _, _, _ => rfl
  | _ :: _, 0, _, _ => rfl
  | s :: ss, i + 1, f, g => by
    simp only [modifyState]
    rw [modifyState_fuse ss i f g]

theorem modifyState_id :
    ∀ (st : List OptState) (i : Nat) (f : OptState → OptState) (s : OptState),
      st[i]? = some s → f s = s → modifyState st i f = st
  | [], i, _, s, h, _ => by simp at h
  | s0 :: ss, 0, f, s, h, hf => by
    simp only [List.getElem?_cons_zero, Option.some.injEq] at h
    subst h
    simp only [modifyState, hf]
  | s0 :: ss, i + 1, f, s, h, hf => by
    simp only [List.getElem?_cons_succ] at h
    simp only [modifyState]
    rw [modifyState_id ss i f s h hf]

theorem findOptD_get :
    ∀ (spec : List OptDef) (n : List Char) (i : Nat) (d : OptDef),
      findOptD spec n = some (i, d) → spec[i]? = some d
  | [], _, _, _, h => by simp [findOptD] at h
  | d0 :: ds, n, i, d, h => by
    unfold findOptD at h
    by_cases hx : (upperTok d0.name == upperTok n) = true
    · rw [if_pos hx] at h
      simp only [Option.some.injEq, Prod.mk.injEq] at h
      obtain ⟨hi, hd⟩ := h
      subst hi; subst hd
      simp
    · rw [if_neg hx] at h
      cases hfd : findOptD ds n with
      | none => rw [hfd] at h; simp at h
      | some p =>
        obtain ⟨j, d'⟩ := p
        rw [hfd] at h
        simp only [Option.map_some', Option.some.injEq, Prod.mk.injEq] at h
        obtain ⟨hi, hd⟩ := h
        subst hi
        rw [List.getElem?_cons_succ, ← hd]
        exact findOptD_get ds n j d' hfd

theorem findOptD_mem :
    ∀ (spec : List OptDef) (n : List Char) (i : Nat) (d : OptDef),
      findOptD spec n = some (i, d) → d ∈ spec ∧ upperTok d.name = upperTok n
  | [], _, _, _, h => by simp [findOptD] at h
  | d0 :: ds, n, i, d, h => by
    unfold findOptD at h
    by_cases hx : (upperTok d0.name == upperTok n) = true
    · rw [if_pos hx] at h
      simp only [Option.some.injEq, Prod.mk.injEq] at h
      obtain ⟨_, hd⟩ := h
      subst hd
      exact ⟨by simp, beq_iff_eq.1 hx⟩
    · rw [if_neg hx] at h
      cases hfd : findOptD ds n with
      | none => rw [hfd] at h; simp at h
      | some p =>
        obtain ⟨j, d'⟩ := p
        rw [hfd] at h
        simp only [Option.map_some', Option.some.injEq, Prod.mk.injEq] at h
        obtain ⟨hi, hd⟩ := h
        obtain ⟨hmem, hup⟩ := findOptD_mem ds n j d' hfd
        exact ⟨List.mem_cons_of_mem _ (hd ▸ hmem), hd ▸ hup⟩

/-! ### Claim C3: disabling and re-enabling an option -/

theorem entries_disable :
    ∀ (spec : List OptDef) (st : List OptState) (i : Nat) (d : OptDef) (s : OptState),
      spec[i]? = some d → st[i]? = some s → s.enabled = true →
      ∃ pre post,
        enabledEntries spec st = pre ++ entryTokens d s :: post ∧
        enabledEntries spec (modifyState st i (fun x => ⟨false, x.cache⟩)) = pre ++ post
  | [], _, i, _, _, hd, _, _ => by simp at hd
  | _ :: _, [], 0, _, _, _, hs, _ => by simp at hs
  | _ :: _, [], _ + 1, _, _, _, hs, _ => by simp at hs
  | d0 :: ds, s0 :: ss, 0, d, s, hd, hs, he => by
    simp only [List.getElem?_cons_zero, Option.some.injEq] at hd hs
    refine ⟨[], enabledEntries ds ss, ?_, ?_⟩
    · rw [enabledEntries_cons, if_pos (by rw [hs]; exact he), hd, hs]
      simp
    · rw [show modifyState (s0 :: ss) 0 (fun x => (⟨false, x.cache⟩ : OptState)) =
        ⟨false, s0.cache⟩ :: ss from rfl]
      rw [enabledEntries_cons]
      simp
  | d0 :: ds, s0 :: ss, i + 1, d, s, hd, hs, he => by
    simp only [List.getElem?_cons_succ] at hd hs
    obtain ⟨pre, post, h1, h2⟩ := entries_disable ds ss i d s hd hs he
    refine ⟨(if s0.enabled = true then [entryTokens d0 s0] else []) ++ pre, post, ?_, ?_⟩
    · rw [enabledEntries_cons, h1, List.append_assoc]
    · show enabledEntries (d0 :: ds) (s0 :: modifyState ss i _) = _
      rw [enabledEntries_cons, h2, List.append_assoc]

/-- C3: for any option block in which a recognized option is currently
enabled (for example `ETSQUARE` with cached sub-value `0.2`), setting that
option to false removes exactly its entry from the rendered output while
the other entries are untouched, and setting it back to true without
supplying sub-values restores the block to its exact original state — the
previously cached sub-values reappear in the rendering. -/
theorem C3_disable_reenable (b : OptionBlock) (name : List Char) (i : Nat)
    (d : OptDef) (s : OptState) (hf : findOptD b.spec name = some (i, d))
    (hsi : b.state[i]? = some s) (he : s.enabled = true) :
    setOptionFlag b name false =
      some ⟨b.spec, modifyState b.state i (fun x => ⟨false, x.cache⟩), b.block⟩ ∧
    (setOptionFlag b name false).bind (fun b1 => setOptionFlag b1 name true) =
      some b ∧
    ∃ pre post,
      enabledEntries b.spec b.state = pre ++ entryTokens d s :: post ∧
      enabledEntries b.spec (modifyState b.state i (fun x => ⟨false, x.cache⟩)) =
        pre ++ post := by
  have h1 : setOptionFlag b name false =
      some ⟨b.spec, modifyState b.state i (fun x => ⟨false, x.cache⟩), b.block⟩ := by
    unfold setOptionFlag
    rw [hf]
  refine ⟨h1, ?_, entries_disable b.spec b.state i d s (findOptD_get _ _ _ _ hf) hsi he⟩
  rw [h1, Option.some_bind]
  unfold setOptionFlag
  simp only
  rw [hf]
  show some ⟨b.spec, modifyState (modifyState b.state i fun x => ⟨false, x.cache⟩) i
    (fun x => ⟨true, x.cache⟩), b.block⟩ = some b
  rw [modifyState_fuse]
  have hmod : modifyState b.state i
      (fun x => ((⟨true, (⟨false, x.cache⟩ : OptState).cache⟩ : OptState))) = b.state :=
    modifyState_id b.state i _ s hsi (by cases s; simp only at he; simp [he])
  rw [hmod]

/-- Witness for C3: the notebook's `ETSQUARE` scenario on the UZF block. -/
theorem C3_disable_reenable_witness :
    findOptD uzfBlock.spec "ETSQUARE".data = some (1, ⟨"ETSQUARE".data, [.vfloat]⟩) ∧
    uzfBlock.state[1]? = some ⟨true, ["0.2".data]⟩ ∧
    (OptState.enabled ⟨true, ["0.2".data]⟩) = true ∧
    ((setOptionFlag uzfBlock "ETSQUARE".data false).bind
      (fun b1 => setOptionFlag b1 "ETSQUARE".data true) = some uzfBlock ∧
     ∃ pre post,
      enabledEntries uzfBlock.spec uzfBlock.state =
        pre ++ entryTokens ⟨"ETSQUARE".data, [.vfloat]⟩ ⟨true, ["0.2".data]⟩ :: post ∧
      enabledEntries uzfBlock.spec
          (modifyState uzfBlock.state 1 (fun x => ⟨false, x.cache⟩)) = pre ++ post) :=
  ⟨by decide, by decide, by decide,
    (C3_disable_reenable uzfBlock "ETSQUARE".data 1 ⟨"ETSQUARE".data, [.vfloat]⟩
      ⟨true, ["0.2".data]⟩ (by decide) (by decide) (by decide)).2⟩

/-! ### Claim C10: the default display representation -/

/-- C10: the default display representation of an option block is always
the BLOCK-form text — it does not change when the representation mode is
LINE — and it coincides with BLOCK-mode rendering; the LINE-form text is
what the dedicated single-line accessor returns, and it coincides with
LINE-mode rendering. -/
theorem C10_default_repr_is_block_form (b : OptionBlock)
    (hspec : specOK b.spec = true) (hst : stOK b.spec b.state = true) :
    OptionBlock.reprStr (setBlockMode b false) =
      OptionBlock.reprStr (setBlockMode b true) ∧
    OptionBlock.reprStr b = OptionBlock.render (setBlockMode b true) ∧
    OptionBlock.single_line_options b = OptionBlock.render (setBlockMode b false) := by
  refine ⟨rfl, rfl, ?_⟩
  show (⟨joinSep ' '
      (((tokenize '\n' (blockCharsOf b.spec b.state)).drop 1).dropLast)⟩ : String) =
    ⟨lineCharsOf b.spec b.state⟩
  have : joinSep ' '
      (((tokenize '\n' (blockCharsOf b.spec b.state)).drop 1).dropLast) =
      lineCharsOf b.spec b.state := by
    rw [tokenize_block b.spec b.state hspec hst]
    simp only [List.drop_succ_cons, List.drop_zero]
    rw [List.dropLast_concat]
    unfold lineCharsOf entryLinesOf
    exact joinSep_map_flatten ' ' _ (entries_ne_nil hspec hst)
  rw [this]

/-- Witness for C10 at the notebook's UZF block. -/
theorem C10_default_repr_is_block_form_witness :
    specOK uzfBlock.spec = true ∧ stOK uzfBlock.spec uzfBlock.state = true ∧
    (OptionBlock.reprStr (setBlockMode uzfBlock false) =
      OptionBlock.reprStr (setBlockMode uzfBlock true) ∧
    OptionBlock.reprStr uzfBlock = OptionBlock.render (setBlockMode uzfBlock true) ∧
    OptionBlock.single_line_options uzfBlock =
      OptionBlock.render (setBlockMode uzfBlock false)) :=
  ⟨by decide, by decide,
    C10_default_repr_is_block_form uzfBlock (by decide) (by decide)⟩

/-! ### Claim C1: parse is a left inverse of render -/

theorem set_cons_succ (a : OptState) (l : List OptState) (i : Nat) (v : OptState) :
    (a :: l).set (i + 1) v = a :: l.set i v := rfl

theorem findOptD_cons (d : OptDef) (ds : List OptDef) (n : List Char) :
    findOptD (d :: ds) n =
      if (upperTok d.name == upperTok n) = true then some (0, d)
      else (findOptD ds n).map (fun p => (p.1 + 1, p.2)) := rfl

theorem applyLines_eq_cons (spec : List OptDef) (st : List OptState)
    (l : List (List Char)) (ls : List (List (List Char))) :
    applyLines spec st (l :: ls) =
      match applyEntry spec st l with
      | some st2 => applyLines spec st2 ls
      | none => none := rfl

theorem applyEntry_eq (spec : List OptDef) (st : List OptState) (n : List Char)
    (vs : List (List Char)) :
    applyEntry spec st (n :: vs) =
      match findOptD spec n with
      | some (i, d) =>
        if checkVals d.vtypes vs = true then some (st.set i ⟨true, vs⟩) else none
      | none => none := rfl

theorem specOK_mem :
    ∀ spec, specOK spec = true → ∀ d ∈ spec,
      tokenOK d.name = true ∧ upperTok d.name ≠ "OPTIONS".data ∧
      upperTok d.name ≠ "END".data
  | [], _, d, hd => by simp at hd
  | d0 :: ds, h, d, hd => by
    obtain ⟨hn, ho, he, _, h'⟩ := specOK_cons h
    rcases List.mem_cons.1 hd with h1 | h2
    · subst h1; exact ⟨hn, ho, he⟩
    · exact specOK_mem ds h' d h2

theorem entries_not_head (d : OptDef) {ds : List OptDef} {ss : List OptState}
    (hspec' : specOK ds = true) (hst' : stOK ds ss = true)
    (hdist : ∀ e ∈ ds, upperTok e.name ≠ upperTok d.name) :
    ∀ l ∈ enabledEntries ds ss,
      ∃ n vs, l = n :: vs ∧ (upperTok d.name == upperTok n) = false := by
  intro l hl
  obtain ⟨d', s', hd', _, _, rfl, hn'⟩ := entries_shape ds ss hspec' hst' l hl
  refine ⟨d'.name, s'.cache, rfl, ?_⟩
  rw [beq_eq_false_iff_ne]
  intro hcon
  exact hdist d' hd' hcon.symm

theorem applyEntry_cons (d : OptDef) (ds : List OptDef) (s : OptState)
    (st : List OptState) (n : List Char) (vs : List (List Char))
    (hne : (upperTok d.name == upperTok n) = false) :
    applyEntry (d :: ds) (s :: st) (n :: vs) =
      (applyEntry ds st (n :: vs)).map (fun r => s :: r) := by
  rw [applyEntry_eq, applyEntry_eq, findOptD_cons, if_neg (by simp [hne])]
  cases hfd : findOptD ds n with
  | none => rfl
  | some p =>
    obtain ⟨i, d'⟩ := p
    show (if checkVals d'.vtypes vs = true then
        some ((s :: st).set (i + 1) ⟨true, vs⟩) else none) =
      (if checkVals d'.vtypes vs = true then
        some (st.set i ⟨true, vs⟩) else none).map (fun r => s :: r)
    by_cases hcv : checkVals d'.vtypes vs = true
    · rw [if_pos hcv, if_pos hcv, set_cons_succ]
      rfl
    · rw [if_neg hcv, if_neg hcv]
      rfl

theorem applyLines_cons (d : OptDef) (ds : List OptDef) (s : OptState) :
    ∀ (ls : List (List (List Char))) (st : List OptState),
      (∀ l ∈ ls, ∃ n vs, l = n :: vs ∧ (upperTok d.name == upperTok n) = false) →
      applyLines (d :: ds) (s :: st) ls = (applyLines ds st ls).map (fun r => s :: r)
  | [], _, _ => rfl
  | l :: ls, st, h => by
    obtain ⟨n, vs, rfl, hne⟩ := h l (by simp)
    rw [applyLines_eq_cons, applyLines_eq_cons, applyEntry_cons d ds s st n vs hne]
    cases happ : applyEntry ds st (n :: vs) with
    | none => rfl
    | some st2 =>
      show applyLines (d :: ds) (s :: st2) ls = (applyLines ds st2 ls).map _
      exact applyLines_cons d ds s ls st2 fun u hu => h u (List.mem_cons_of_mem _ hu)

theorem applyLines_entries :
    ∀ spec st, specOK spec = true → stOK spec st = true →
      applyLines spec (allOff spec) (enabledEntries spec st) = some st
  | [], st, _, hst => by rw [stOK_nil_left hst]; rfl
  | d :: ds, st0, hspec, hst => by
    obtain ⟨s, ss, rfl⟩ := stOK_cons_shape hst
    obtain ⟨hn, _, _, hdist, hspec'⟩ := specOK_cons hspec
    obtain ⟨hen, hdis, hst'⟩ := stOK_cons hst
    have hcond := entries_not_head d hspec' hst' hdist
    have ih := applyLines_entries ds ss hspec' hst'
    rw [enabledEntries_cons]
    show applyLines (d :: ds) (⟨false, []⟩ :: allOff ds) _ = _
    cases hs : s.enabled with
    | true =>
      have hcv := hen hs
      have hentry : entryTokens d s = d.name :: s.cache :=
        entryTokens_eq hn (checkVals_tokenOK _ _ hcv)
      rw [if_pos rfl, List.singleton_append, hentry]
      have happ : applyEntry (d :: ds) (⟨false, []⟩ :: allOff ds)
          (d.name :: s.cache) = some (⟨true, s.cache⟩ :: allOff ds) := by
        rw [applyEntry_eq, findOptD_cons, if_pos (by simp)]
        show (if checkVals d.vtypes s.cache = true then
            some (((⟨false, []⟩ : OptState) :: allOff ds).set 0 ⟨true, s.cache⟩)
          else none) = _
        rw [if_pos hcv]
        rfl
      rw [applyLines_eq_cons, happ]
      show applyLines (d :: ds) (⟨true, s.cache⟩ :: allOff ds) _ = _
      rw [applyLines_cons d ds ⟨true, s.cache⟩ _ (allOff ds) hcond, ih]
      show some (⟨true, s.cache⟩ :: ss) = some (s :: ss)
      cases s
      simp only at hs
      rw [hs]
    | false =>
      rw [if_neg (by simp), List.nil_append]
      rw [applyLines_cons d ds ⟨false, []⟩ _ (allOff ds) hcond, ih]
      show some (⟨false, []⟩ :: ss) = some (s :: ss)
      have hc := hdis hs
      cases s
      simp only at hs hc
      rw [hs, hc]

theorem parseLineAux_eq_cons (spec : List OptDef) (fuel : Nat)
    (st : List OptState) (n : List Char) (rest : List (List Char)) :
    parseLineAux spec (fuel + 1) st (n :: rest) =
      match findOptD spec n with
      | some (i, d) =>
        if checkVals d.vtypes (rest.take d.vtypes.length) = true then
          parseLineAux spec fuel (st.set i ⟨true, rest.take d.vtypes.length⟩)
            (rest.drop d.vtypes.length)
        else none
      | none => none := rfl

theorem Seg_weaken {d' : OptDef} {ds : List OptDef}
    (hdist : ∀ e ∈ ds, upperTok e.name ≠ upperTok d'.name) :
    ∀ {toks}, Seg ds toks → Seg (d' :: ds) toks := by
  intro toks h
  induction h with
  | nil => exact Seg.nil
  | cons i d n vs rest hfd hcv _ ih =>
    obtain ⟨hmem, hup⟩ := findOptD_mem ds n i d hfd
    have hne : (upperTok d'.name == upperTok n) = false := by
      rw [beq_eq_false_iff_ne]
      intro hcon
      exact hdist d hmem (hup.trans hcon.symm)
    refine Seg.cons (i + 1) d n vs rest ?_ hcv ih
    rw [findOptD_cons, if_neg (by simp [hne]), hfd]
    rfl

theorem Seg_entries :
    ∀ ds ss, specOK ds = true → stOK ds ss = true →
      Seg ds (enabledEntries ds ss).flatten
  | [], ss, _, hst => by
    rw [stOK_nil_left hst]
    exact Seg.nil
  | d :: ds, ss0, hspec, hst => by
    obtain ⟨s, ss, rfl⟩ := stOK_cons_shape hst
    obtain ⟨hn, _, _, hdist, hspec'⟩ := specOK_cons hspec
    obtain ⟨hen, _, hst'⟩ := stOK_cons hst
    have ihw : Seg (d :: ds) (enabledEntries ds ss).flatten :=
      Seg_weaken hdist (Seg_entries ds ss hspec' hst')
    rw [enabledEntries_cons]
    cases hs : s.enabled with
    | false =>
      rw [if_neg (by simp), List.nil_append]
      exact ihw
    | true =>
      have hcv := hen hs
      rw [if_pos rfl, List.singleton_append, List.flatten_cons,
        entryTokens_eq hn (checkVals_tokenOK _ _ hcv)]
      exact Seg.cons 0 d d.name s.cache _
        (by rw [findOptD_cons, if_pos (by simp)]) hcv ihw

theorem parseLineAux_cons {d : OptDef} {ds : List OptDef}
    (hdist : ∀ e ∈ ds, upperTok e.name ≠ upperTok d.name) :
    ∀ {toks}, Seg ds toks → ∀ fuel (s : OptState) (st : List OptState),
      parseLineAux (d :: ds) fuel (s :: st) toks =
        (parseLineAux ds fuel st toks).map (fun r => s :: r) := by
  intro toks h
  induction h with
  | nil =>
    intro fuel s st
    cases fuel <;> rfl
  | cons i d' n vs rest hfd hcv _ ih =>
    intro fuel s st
    obtain ⟨hmem, hup⟩ := findOptD_mem ds n i d' hfd
    have hne : (upperTok d.name == upperTok n) = false := by
      rw [beq_eq_false_iff_ne]
      intro hcon
      exact hdist d' hmem (hup.trans hcon.symm)
    cases fuel with
    | zero => rfl
    | succ f =>
      have hfd' : findOptD (d :: ds) n = some (i + 1, d') := by
        rw [findOptD_cons, if_neg (by simp [hne]), hfd]
        rfl
      have hlen : vs.length = d'.vtypes.length := checkVals_length _ _ hcv
      have htake : (vs ++ rest).take d'.vtypes.length = vs := by
        rw [← hlen]
        exact List.take_left vs rest
      have hdrop : (vs ++ rest).drop d'.vtypes.length = rest := by
        rw [← hlen]
        exact List.drop_left vs rest
      rw [parseLineAux_eq_cons, parseLineAux_eq_cons, hfd', hfd]
      show (if checkVals d'.vtypes ((vs ++ rest).take d'.vtypes.length) = true then
          parseLineAux (d :: ds) f
            ((s :: st).set (i + 1) ⟨true, (vs ++ rest).take d'.vtypes.length⟩)
            ((vs ++ rest).drop d'.vtypes.length)
        else none) =
        (if checkVals d'.vtypes ((vs ++ rest).take d'.vtypes.length) = true then
          parseLineAux ds f (st.set i ⟨true, (vs ++ rest).take d'.vtypes.length⟩)
            ((vs ++ rest).drop d'.vtypes.length)
        else none).map (fun r => s :: r)
      rw [htake, hdrop, if_pos hcv, if_pos hcv, set_cons_succ]
      exact ih f s (st.set i ⟨true, vs⟩)

theorem parseLineAux_entries :
    ∀ spec st, specOK spec = true → stOK spec st = true →
      ∀ fuel, (enabledEntries spec st).flatten.length ≤ fuel →
        parseLineAux spec fuel (allOff spec) (enabledEntries spec st).flatten = some st
  | [], st, _, hst, fuel, _ => by
    rw [stOK_nil_left hst]
    cases fuel <;> rfl
  | d :: ds, st0, hspec, hst, fuel, hfuel => by
    obtain ⟨s, ss, rfl⟩ := stOK_cons_shape hst
    obtain ⟨hn, _, _, hdist, hspec'⟩ := specOK_cons hspec
    obtain ⟨hen, hdis, hst'⟩ := stOK_cons hst
    have hseg := Seg_entries ds ss hspec' hst'
    rw [enabledEntries_cons] at hfuel ⊢
    show parseLineAux (d :: ds) fuel (⟨false, []⟩ :: allOff ds) _ = _
    cases hs : s.enabled with
    | false =>
      rw [if_neg (by simp [hs]), List.nil_append] at hfuel
      rw [if_neg (by simp), List.nil_append]
      rw [parseLineAux_cons hdist hseg fuel ⟨false, []⟩ (allOff ds)]
      rw [parseLineAux_entries ds ss hspec' hst' fuel hfuel]
      show some (⟨false, []⟩ :: ss) = some (s :: ss)
      have hc := hdis hs
      cases s
      simp only at hs hc
      rw [hs, hc]
    | true =>
      have hcv := hen hs
      have hentry : entryTokens d s = d.name :: s.cache :=
        entryTokens_eq hn (checkVals_tokenOK _ _ hcv)
      rw [if_pos hs, List.singleton_append, List.flatten_cons, hentry] at hfuel
      rw [if_pos rfl, List.singleton_append, List.flatten_cons, hentry]
      cases fuel with
      | zero =>
        exfalso
        simp only [List.cons_append, List.length_cons] at hfuel
        omega
      | succ f =>
        have hfind : findOptD (d :: ds) d.name = some (0, d) := by
          rw [findOptD_cons, if_pos (by simp)]
        have hlen : s.cache.length = d.vtypes.length := checkVals_length _ _ hcv
        have htake : (s.cache ++ (enabledEntries ds ss).flatten).take
            d.vtypes.length = s.cache := by
          rw [← hlen]
          exact List.take_left _ _
        have hdrop : (s.cache ++ (enabledEntries ds ss).flatten).drop
            d.vtypes.length = (enabledEntries ds ss).flatten := by
          rw [← hlen]
          exact List.drop_left _ _
        rw [show (d.name :: s.cache) ++ (enabledEntries ds ss).flatten =
          d.name :: (s.cache ++ (enabledEntries ds ss).flatten) from rfl]
        rw [parseLineAux_eq_cons, hfind]
        show (if checkVals d.vtypes ((s.cache ++
            (enabledEntries ds ss).flatten).take d.vtypes.length) = true then
            parseLineAux (d :: ds) f
              (((⟨false, []⟩ : OptState) :: allOff ds).set 0
                ⟨true, (s.cache ++ (enabledEntries ds ss).flatten).take d.vtypes.length⟩)
              ((s.cache ++ (enabledEntries ds ss).flatten).drop d.vtypes.length)
          else none) = some (s :: ss)
        rw [htake, hdrop, if_pos hcv]
        show parseLineAux (d :: ds) f (⟨true, s.cache⟩ :: allOff ds)
          (enabledEntries ds ss).flatten = some (s :: ss)
        rw [parseLineAux_cons hdist hseg f ⟨true, s.cache⟩ (allOff ds)]
        rw [parseLineAux_entries ds ss hspec' hst' f (by
          simp only [List.cons_append, List.length_cons, List.length_append] at hfuel
          omega)]
        show some (⟨true, s.cache⟩ :: ss) = some (s :: ss)
        cases s
        simp only at hs
        rw [hs]

theorem entries_nil_state :
    ∀ spec st, stOK spec st = true → enabledEntries spec st = [] → st = allOff spec
  | [], st, hst, _ => by rw [stOK_nil_left hst]; rfl
  | d :: ds, st0, hst, hent => by
    obtain ⟨s, ss, rfl⟩ := stOK_cons_shape hst
    obtain ⟨_, hdis, hst'⟩ := stOK_cons hst
    rw [enabledEntries_cons] at hent
    obtain ⟨hif, hrec⟩ := List.append_eq_nil.1 hent
    cases hs : s.enabled with
    | true => rw [if_pos hs] at hif; simp at hif
    | false =>
      have hc := hdis hs
      show _ = (⟨false, []⟩ : OptState) :: allOff ds
      rw [entries_nil_state ds ss hst' hrec]
      cases s
      simp only at hs hc
      rw [hs, hc]

theorem subsetOK_stOK :
    ∀ spec O, subsetOK spec O = true → stOK spec (buildState O) = true
  | [], [], _ => rfl
  | [], _ :: _, h => by simp [subsetOK] at h
  | _ :: _, [], h => by simp [subsetOK] at h
  | d :: ds, o :: os, h => by
    unfold subsetOK at h
    simp only [Bool.and_eq_true] at h
    have ih := subsetOK_stOK ds os h.2
    show stOK (d :: ds) (_ :: buildState os) = true
    unfold stOK
    simp only [Bool.and_eq_true]
    refine ⟨?_, ih⟩
    cases o with
    | none => simp
    | some vs => simpa using h.1

theorem parse_blockChars (spec : List OptDef) (st : List OptState)
    (hspec : specOK spec = true) (hst : stOK spec st = true) :
    parseChars spec (blockCharsOf spec st) = some ⟨spec, st, true⟩ := by
  unfold parseChars
  have htk := tokenize_block spec st hspec hst
  split
  · next heq =>
    rw [htk] at heq
    simp at heq
  · next l ls heq =>
    rw [htk] at heq
    injection heq with h1 h2
    subst h1
    subst h2
    rw [if_pos (by decide), List.getLast?_concat, Option.any_some,
      if_pos (by decide), List.dropLast_concat]
    have hmap : (entryLinesOf spec st).map (tokenize ' ') = enabledEntries spec st := by
      unfold entryLinesOf
      rw [List.map_map]
      have hpt : ∀ e ∈ enabledEntries spec st,
          (tokenize ' ' ∘ joinSep ' ') e = id e := by
        intro e he
        show tokenize ' ' (joinSep ' ' e) = e
        apply tokenize_joinSep
        intro t ht
        have htok := entries_tokens_ok hspec hst e he t ht
        exact ⟨tokenOK_ne_nil htok, fun c hc => (tokenOK_mem htok c hc).1⟩
      rw [List.map_congr_left hpt, List.map_id]
    rw [hmap, applyLines_entries spec st hspec hst]
    rfl

theorem parse_lineChars (spec : List OptDef) (st : List OptState)
    (hspec : specOK spec = true) (hst : stOK spec st = true) :
    parseChars spec (lineCharsOf spec st) = some ⟨spec, st, false⟩ := by
  by_cases hent : enabledEntries spec st = []
  · have hline : lineCharsOf spec st = [] := by
      unfold lineCharsOf
      rw [hent]
      rfl
    rw [hline, entries_nil_state spec st hst hent]
    rfl
  · obtain ⟨e, es, hes⟩ : ∃ e es, enabledEntries spec st = e :: es := by
      cases h : enabledEntries spec st with
      | nil => exact absurd h hent
      | cons e es => exact ⟨e, es, rfl⟩
    obtain ⟨d0, s0, hd0, _, _, hee, hn0⟩ :=
      entries_shape spec st hspec hst e (by rw [hes]; simp)
    have hflat : (enabledEntries spec st).flatten =
        d0.name :: (s0.cache ++ es.flatten) := by
      rw [hes, List.flatten_cons, hee]
      rfl
    have htoks : ∀ t ∈ (enabledEntries spec st).flatten, tokenOK t = true := by
      intro t ht
      obtain ⟨u, hu, htu⟩ := List.mem_flatten.1 ht
      exact entries_tokens_ok hspec hst u hu t htu
    have hname0 : tokenOK d0.name = true := htoks d0.name (by rw [hflat]; simp)
    have hlnn : joinSep ' ' (enabledEntries spec st).flatten ≠ [] := by
      rw [hflat]
      exact joinSep_ne_nil (tokenOK_ne_nil hname0)
    have hupper : ∀ c ∈ joinSep ' ' (enabledEntries spec st).flatten,
        c.toUpper = c := by
      intro c hc
      rcases mem_joinSep ' ' c _ hc with h1 | ⟨t, ht, hct⟩
      · subst h1; decide
      · exact (tokenOK_mem (htoks t ht) c hct).2.2
    have hnonl : ∀ c ∈ joinSep ' ' (enabledEntries spec st).flatten, c ≠ '\n' := by
      intro c hc
      rcases mem_joinSep ' ' c _ hc with h1 | ⟨t, ht, hct⟩
      · subst h1; decide
      · exact (tokenOK_mem (htoks t ht) c hct).2.1
    have hnotOpt : (upperTok (joinSep ' ' (enabledEntries spec st).flatten) ==
        "OPTIONS".data) = false := by
      rw [beq_eq_false_iff_ne]
      intro hcon
      rw [upperTok_eq_self hupper] at hcon
      rw [hflat] at hcon
      cases hrest : s0.cache ++ es.flatten with
      | nil =>
        rw [hrest] at hcon
        have hno := (specOK_mem spec hspec d0 hd0).2.1
        rw [tokenOK_upper hn0] at hno
        exact hno hcon
      | cons t ts =>
        rw [hrest, joinSep_cons_cons] at hcon
        have hsp : ' ' ∈ "OPTIONS".data := by
          rw [← hcon]
          exact List.mem_append_right _ (List.mem_cons_self _ _)
        exact absurd hsp (by decide)
    have h1 : tokenize '\n' (joinSep ' ' (enabledEntries spec st).flatten) =
        [joinSep ' ' (enabledEntries spec st).flatten] :=
      tokenize_single hlnn hnonl
    have htk2 : tokenize ' ' (joinSep ' ' (enabledEntries spec st).flatten) =
        (enabledEntries spec st).flatten := by
      apply tokenize_joinSep
      intro t ht
      exact ⟨tokenOK_ne_nil (htoks t ht),
        fun c hc => (tokenOK_mem (htoks t ht) c hc).1⟩
    show parseChars spec (joinSep ' ' (enabledEntries spec st).flatten) = _
    unfold parseChars
    split
    · next heq =>
      rw [h1] at heq
      simp at heq
    · next l ls heq =>
      rw [h1] at heq
      injection heq with hl hls
      subst hl
      subst hls
      rw [if_neg (by simp [hnotOpt]), if_pos (by decide), htk2]
      unfold parseLineToks
      rw [parseLineAux_entries spec st hspec hst _ (le_refl _)]
      rfl

/-- C1: for every well-formed option spec and every subset of enabled
options with valid sub-values, parsing the BLOCK-mode rendering of the
option block built from that subset yields the block itself, and the same
holds for the LINE-mode rendering: parse is a left inverse of render in
both representation modes. -/
theorem C1_parse_left_inverse_of_render (spec : List OptDef)
    (O : List (Option (List (List Char)))) (hspec : specOK spec = true)
    (hO : subsetOK spec O = true) :
    parse (OptionBlock.render (mkBlock spec O true)) spec =
      some (mkBlock spec O true) ∧
    parse (OptionBlock.render (mkBlock spec O false)) spec =
      some (mkBlock spec O false) := by
  have hst := subsetOK_stOK spec O hO
  constructor
  · show parseChars spec (blockCharsOf spec (buildState O)) = _
    exact parse_blockChars spec (buildState O) hspec hst
  · show parseChars spec (lineCharsOf spec (buildState O)) = _
    exact parse_lineChars spec (buildState O) hspec hst

/-- Witness for C1: the UZF spec with all three options enabled. -/
theorem C1_parse_left_inverse_of_render_witness :
    specOK uzfSpec = true ∧
    subsetOK uzfSpec [some [], some ["0.2".data], some []] = true ∧
    (parse (OptionBlock.render (mkBlock uzfSpec
        [some [], some ["0.2".data], some []] true)) uzfSpec =
      some (mkBlock uzfSpec [some [], some ["0.2".data], some []] true) ∧
    parse (OptionBlock.render (mkBlock uzfSpec
        [some [], some ["0.2".data], some []] false)) uzfSpec =
      some (mkBlock uzfSpec [some [], some ["0.2".data], some []] false)) :=
  ⟨by decide, by decide,
    C1_parse_left_inverse_of_render uzfSpec [some [], some ["0.2".data], some []]
      (by decide) (by decide)⟩

end FlopyDemo
